import Mathlib

/-!
Verification development for the YouTube transcript extraction pipeline
(`yt_transcript.py`): identifier resolution, cursor-based playlist
pagination, per-video transcript fetching with whitespace normalization,
and the fault-isolation behaviour of the batch orchestrator.

Strings are embedded as `List Char` so that the character-level operations
of the source (`str.split`, `re.search`, `re.sub`) can be modelled by
structural recursion.  Remote services are oracles passed in as functions;
exceptions are modelled by `Except`.
-/

/-- Python strings, embedded as lists of characters. -/
abbrev Str := List Char

/-- Whether `l` starts with `sub` (Python `str.startswith`). -/
def beginsWith : Str → Str → Bool
  | [], _ => true
  | _ :: _, [] => false
  | a :: as, b :: bs => a == b && beginsWith as bs

/-- Whether `sub` occurs contiguously inside `l` (Python `sub in l`). -/
def hasSub (sub : Str) : Str → Bool
  | [] => sub.isEmpty
  | c :: rest => beginsWith sub (c :: rest) || hasSub sub rest

/-- Python `s.split(d)` for a single-character separator `d`:
splits at every occurrence, keeping empty groups. -/
def splitOnChar (d : Char) : Str → List Str
  | [] => [[]]
  | c :: rest =>
    match splitOnChar d rest with
    | [] => if c == d then [[], []] else [[c]]
    | g :: gs => if c == d then [] :: g :: gs else (c :: g) :: gs

/-- Python `s.split(d)[0]` for a single-character separator:
everything before the first occurrence of `d`. -/
def takeUntil (d : Char) (l : Str) : Str := l.takeWhile (fun c => c != d)

/-- The identifier alphabet `[0-9A-Za-z_-]` of the source's regexes. -/
def isIdChar (c : Char) : Bool :=
  ('0' ≤ c && c ≤ '9') || ('A' ≤ c && c ≤ 'Z') || ('a' ≤ c && c ≤ 'z')
    || c == '_' || c == '-'

/-- A candidate capture for the group `([0-9A-Za-z_-]{11})`: exactly 11
characters, all from the identifier alphabet. -/
def idCand (l : Str) : Bool := l.length == 11 && l.all isIdChar

/-- Model of `re.search(r'(?:v=|\/)([0-9A-Za-z_-]{11}).*', url)`, returning the
group: scan left to right; at each position a match needs either `v=` or
`/` followed by 11 identifier-alphabet characters (the trailing `.*` is
unconstraining).  Returns the group of the leftmost match. -/
def searchVId : Str → Option Str
  | [] => none
  | c :: rest =>
    if c == 'v' && beginsWith ['='] rest && idCand ((rest.drop 1).take 11) then
      some ((rest.drop 1).take 11)
    else if c == '/' && idCand (rest.take 11) then
      some (rest.take 11)
    else searchVId rest

/-- A well-formed 11-character video identifier: exactly 11 characters of
the identifier alphabet (the spec's VideoId class). -/
def wellFormedId (l : Str) : Bool := l.length == 11 && l.all isIdChar

/-- Model of `re.match(r'^[0-9A-Za-z_-]{11}$', url)` as a boolean.
Python's `$` also matches just before a single trailing newline, so the
pattern accepts 11 identifier characters optionally followed by `'\n'`
(and the source then returns the whole 12-character string). -/
def isBareVId (l : Str) : Bool :=
  wellFormedId l
    || (l.length == 12 && (l.take 11).all isIdChar && l.getLastD ' ' == '\n')

/-- Embedding of `YouTubeTranscriptExtractor.extract_video_id_from_url`:
1. if `'youtu.be'` occurs, return the last `/`-segment with any `?...` stripped;
2. else the first regex capture of `(?:v=|\/)([0-9A-Za-z_-]{11}).*`;
3. else the input itself when it is a bare 11-character identifier;
4. else `None`. -/
def extract_video_id_from_url (url : Str) : Option Str :=
  if hasSub ("youtu.be".toList) url then
    some (takeUntil '?' ((splitOnChar '/' url).getLastD []))
  else
    match searchVId url with
    | some v => some v
    | none => if isBareVId url then some url else none

/-! ### Transcript fetching and whitespace normalization -/

/-- Python's whitespace class, as used by `\s` in str patterns and by
`str.strip()`: the six ASCII whitespace characters, the separators
U+001C-U+001F, and the Unicode whitespace characters (NEL, NBSP, OGHAM
SPACE MARK, the U+2000-U+200A spaces, LINE/PARAGRAPH SEPARATOR, NARROW
NO-BREAK SPACE, MEDIUM MATHEMATICAL SPACE, IDEOGRAPHIC SPACE). -/
def pyIsSpace (c : Char) : Bool :=
  c == ' ' || c == '\t' || c == '\n' || c == '\r' || c == '\x0b' || c == '\x0c'
    || ('\x1c' ≤ c && c ≤ '\x1f') || c == '\x85' || c == '\xa0'
    || c == '\u1680' || ('\u2000' ≤ c && c ≤ '\u200a')
    || c == '\u2028' || c == '\u2029' || c == '\u202f' || c == '\u205f'
    || c == '\u3000'

/-- Model of `re.sub(r'\s+', ' ', s)`: every maximal run of whitespace is replaced
by a single space.  Of each whitespace run, all characters but the last
are dropped and the last becomes `' '`. -/
def collapseWs : Str → Str
  | [] => []
  | [c] => [if pyIsSpace c then ' ' else c]
  | c1 :: c2 :: rest =>
    if pyIsSpace c1 && pyIsSpace c2 then collapseWs (c2 :: rest)
    else (if pyIsSpace c1 then ' ' else c1) :: collapseWs (c2 :: rest)

/-- Remove trailing whitespace (the right half of Python `str.strip`). -/
def dropEndWs (l : Str) : Str := (l.reverse.dropWhile pyIsSpace).reverse

/-- Python `str.strip()` restricted to whitespace. -/
def stripWs (l : Str) : Str := dropEndWs (l.dropWhile pyIsSpace)

/-- The source's transcript cleanup: `re.sub(r'\s+', ' ', s).strip()`. -/
def normalizeWs (l : Str) : Str := stripWs (collapseWs l)

/-- Python `" ".join(segments)`. -/
def joinSegments (segs : List Str) : Str := List.intercalate [' '] segs

/-- Outcome of one call against the remote transcript service for one
video: the returned text segments, or one of the two exceptions the
source handles (`TranscriptsDisabled`, `NoTranscriptFound`), or any other
exception. -/
inductive FetchOutcome where
  | ok (segments : List Str)
  | disabled (msg : Str)
  | noTranscript (msg : Str)
  | other (msg : Str)
deriving DecidableEq

/-- The transcript-service oracle: per video id and optional language,
what the remote calls in `get_video_transcript` produce. -/
abbrev FetchOracle := Str → Option Str → FetchOutcome

/-- The dictionary returned by `get_video_transcript`. -/
structure TranscriptResult where
  video_id : Str
  transcript : Option Str
  error : Option Str
deriving DecidableEq

/-- Embedding of `YouTubeTranscriptExtractor.get_video_transcript`: on success joins the
segment texts with single spaces and applies `re.sub(r'\s+',' ',·).strip()`;
`TranscriptsDisabled` and `NoTranscriptFound` are caught and downgraded to
an `error`-bearing result; any other exception propagates (`Except.error`). -/
def get_video_transcript (fetch : FetchOracle) (video_id : Str)
    (language : Option Str) : Except Str TranscriptResult :=
  match fetch video_id language with
  | .ok segs =>
      .ok ⟨video_id, some (normalizeWs (joinSegments segs)), none⟩
  | .disabled m => .ok ⟨video_id, none, some m⟩
  | .noTranscript m => .ok ⟨video_id, none, some m⟩
  | .other m => .error m

/-- Embedding of `YouTubeTranscriptExtractor.extract_transcripts_batch` (file output and
the pacing delay have no bearing on the returned value and are omitted):
iterates the input ids in order, appending each fetch's result; an
uncaught exception from `get_video_transcript` propagates, aborting the
batch and losing the results collected so far. -/
def extract_transcripts_batch (fetch : FetchOracle) (video_ids : List Str)
    (language : Option Str) : Except Str (List TranscriptResult) :=
  match video_ids with
  | [] => .ok []
  | v :: rest => do
      let r ← get_video_transcript fetch v language
      let rs ← extract_transcripts_batch fetch rest language
      return r :: rs

/-! ### Playlist pagination -/

/-- Python truthiness of `self.api_key : Optional[str]`: `None` and the
empty string are falsy. -/
def pyFalsy : Option Str → Bool
  | none => true
  | some s => s.isEmpty

/-- One response of the `playlistItems().list` endpoint. -/
structure PageResponse where
  items : List Str
  nextPageToken : Option Nat

/-- Model of the remote `playlistItems().list` endpoint for a playlist
holding the given ordered video ids.  The opaque continuation cursor is
modelled as the index of the next unread item; an absent `pageToken`
means the start.  The endpoint returns at most `pageSize` items and a
continuation cursor exactly when items remain beyond the returned window. -/
def playlistItemsList (playlist : List Str) (pageSize : Nat)
    (pageToken : Option Nat) : PageResponse :=
  let cursor := pageToken.getD 0
  ⟨(playlist.drop cursor).take pageSize,
   if cursor + pageSize < playlist.length then some (cursor + pageSize) else none⟩

/-- Ghost record of one page request actually issued: the `maxResults`
page size passed, and how many ids had been collected before the call. -/
structure PageReq where
  size : Nat
  before : Nat
deriving DecidableEq

/-- The `while True` pagination loop of `get_playlist_video_ids`.
`failAt reqIdx` tells whether the `reqIdx`-th `request.execute()` raises
`HttpError` (which the source catches and turns into `break`).  Returns
the collected ids together with the ghost trace of issued requests. -/
def playlistLoop (playlist : List Str) (failAt : Nat → Bool) (maxResults : Nat)
    (reqIdx : Nat) (acc : List Str) (pageToken : Option Nat) :
    List Str × List PageReq :=
  if failAt reqIdx then (acc, [⟨min (maxResults - acc.length) 50, acc.length⟩])
  else
    if h1 : (pageToken.getD 0) + min (maxResults - acc.length) 50 < playlist.length then
      if h2 : maxResults ≤ (acc ++ (playlistItemsList playlist
          (min (maxResults - acc.length) 50) pageToken).items).length then
        (acc ++ (playlistItemsList playlist (min (maxResults - acc.length) 50) pageToken).items,
         [⟨min (maxResults - acc.length) 50, acc.length⟩])
      else
        match playlistLoop playlist failAt maxResults (reqIdx + 1)
            (acc ++ (playlistItemsList playlist (min (maxResults - acc.length) 50) pageToken).items)
            (some ((pageToken.getD 0) + min (maxResults - acc.length) 50)) with
        | (ids, reqs) => (ids, ⟨min (maxResults - acc.length) 50, acc.length⟩ :: reqs)
    else
      (acc ++ (playlistItemsList playlist (min (maxResults - acc.length) 50) pageToken).items,
       [⟨min (maxResults - acc.length) 50, acc.length⟩])
termination_by playlist.length - pageToken.getD 0
decreasing_by
  simp only [Option.getD_some, List.length_append, List.length_take,
    List.length_drop, playlistItemsList] at *
  omega

/-- Embedding of `YouTubeTranscriptExtractor.get_playlist_video_ids`: raises
`ValueError` when the api key is falsy, otherwise runs the pagination
loop from the start cursor with an empty accumulator.  `playlists` maps a
playlist id to the playlist's ordered contents (the remote side). -/
def get_playlist_video_ids (api_key : Option Str) (playlists : Str → List Str)
    (failAt : Nat → Bool) (playlist_id : Str) (maxResults : Nat) :
    Except Str (List Str × List PageReq) :=
  if pyFalsy api_key then
    .error ("YouTube API key is required for playlist operations".toList)
  else
    .ok (playlistLoop (playlists playlist_id) failAt maxResults 0 [] none)

/-- Embedding of `YouTubeTranscriptExtractor.get_channel_video_ids`: raises `ValueError`
when the api key is falsy; looks up the channel's uploads playlist
(`channels` maps channel id to its uploads-playlist id, `none` when the
channel lookup returns no items, in which case the source returns `[]`);
otherwise delegates to `get_playlist_video_ids`. -/
def get_channel_video_ids (api_key : Option Str) (channels : Str → Option Str)
    (playlists : Str → List Str) (failAt : Nat → Bool) (channel_id : Str)
    (maxResults : Nat) : Except Str (List Str) :=
  if pyFalsy api_key then
    .error ("YouTube API key is required for channel operations".toList)
  else
    match channels channel_id with
    | none => .ok []
    | some uploads => do
        let r ← get_playlist_video_ids api_key playlists failAt uploads maxResults
        return r.1

/-! ### The top-level dispatcher `extract_from_url` -/

/-- Python `s.split(sep)` for a non-empty multi-character separator
(the source only uses it with `'youtube.com/channel/'`). -/
def splitSub (sep : Str) : Str → List Str
  | [] => [[]]
  | c :: rest =>
    if sep.isEmpty then [c :: rest]
    else if beginsWith sep (c :: rest) then
      [] :: splitSub sep ((c :: rest).drop sep.length)
    else
      match splitSub sep rest with
      | [] => [[c]]
      | g :: gs => (c :: g) :: gs
termination_by l => l.length
decreasing_by
  · simp only [List.length_drop, List.length_cons]
    rename_i hne _
    simp only [List.isEmpty_eq_true] at hne
    cases sep with
    | nil => exact absurd rfl hne
    | cons a as => simp only [List.length_cons]; omega
  · simp

/-- Model of `re.search(r'list=([^&]+)', url)`, returning the group: the leftmost
position where `list=` is followed by at least one non-`&` character;
the group is the maximal run of non-`&` characters there. -/
def searchListParam : Str → Option Str
  | [] => none
  | c :: rest =>
    if beginsWith ("list=".toList) (c :: rest)
        && !(((c :: rest).drop 5).takeWhile (fun x => x != '&')).isEmpty then
      some (((c :: rest).drop 5).takeWhile (fun x => x != '&'))
    else searchListParam rest

/-- The dictionary returned by `extract_from_url`: an error dictionary, a
single-video transcript result, or a playlist/channel result bundling the
batch's transcripts. -/
inductive ExtractResult where
  | err (msg : Str)
  | video (r : TranscriptResult)
  | playlistR (playlist_id : Str) (transcripts : List TranscriptResult)
  | channelR (channel_id : Str) (transcripts : List TranscriptResult)
deriving DecidableEq

/-- Embedding of `YouTubeTranscriptExtractor.extract_from_url`.  Oracles: `playlists`
and `failAt` drive pagination as above; `channels` resolves a channel id
to its uploads playlist; `searchCh` models `search().list` by channel
name and `userCh` models `channels().list(forUsername=...)`, each
returning `Except.error` for an `HttpError` (caught by the source and
turned into an error dictionary) and `Option` for an empty `items` list;
`fetch` is the transcript-service oracle.  Uncaught exceptions (e.g. the
`ValueError` from a falsy api key on the playlist path, or an unexpected
transcript-service failure) surface as `Except.error`. -/
def extract_from_url (api_key : Option Str) (playlists : Str → List Str)
    (failAt : Nat → Bool) (channels : Str → Option Str)
    (searchCh : Str → Except Str (Option Str))
    (userCh : Str → Except Str (Option Str)) (fetch : FetchOracle)
    (url : Str) (language : Option Str) : Except Str ExtractResult :=
  if hasSub ("youtube.com/watch".toList) url || hasSub ("youtu.be/".toList) url then
    match extract_video_id_from_url url with
    | none => .ok (.err ("Invalid YouTube video URL".toList))
    | some vid =>
      if vid.isEmpty then .ok (.err ("Invalid YouTube video URL".toList))
      else do
        let r ← get_video_transcript fetch vid language
        return .video r
  else if hasSub ("youtube.com/playlist".toList) url then
    match searchListParam url with
    | none => .ok (.err ("Invalid YouTube playlist URL".toList))
    | some playlist_id => do
      let r ← get_playlist_video_ids api_key playlists failAt playlist_id 50
      let ts ← extract_transcripts_batch fetch r.1 language
      return .playlistR playlist_id ts
  else if hasSub ("youtube.com/channel/".toList) url
      || hasSub ("youtube.com/c/".toList) url
      || hasSub ("youtube.com/user/".toList) url then
    if pyFalsy api_key then
      .ok (.err ("YouTube API key required for channel operations".toList))
    else if hasSub ("youtube.com/channel/".toList) url then do
      let channel_id := takeUntil '/'
        ((splitSub ("youtube.com/channel/".toList) url).getD 1 [])
      let ids ← get_channel_video_ids api_key channels playlists failAt channel_id 50
      let ts ← extract_transcripts_batch fetch ids language
      return .channelR channel_id ts
    else
      let username := (splitOnChar '/' url).getLastD []
      let lookup := if hasSub ("youtube.com/c/".toList) url then searchCh username
        else userCh username
      match lookup with
      | .error e => .ok (.err ("YouTube API error: ".toList ++ e))
      | .ok none => .ok (.err ("Channel not found: ".toList ++ username))
      | .ok (some channel_id) => do
        let ids ← get_channel_video_ids api_key channels playlists failAt channel_id 50
        let ts ← extract_transcripts_batch fetch ids language
        return .channelR channel_id ts
  else
    .ok (.err ("URL not recognized as YouTube video, playlist, or channel".toList))

/-- URL schema: canonical short-link form `https://youtu.be/<id>`. -/
def shortLinkUrl (id : Str) : Str := "https://youtu.be/".toList ++ id

/-- URL schema: short-link with trailing query, `https://youtu.be/<id>?<q>`. -/
def shortLinkUrlQ (id q : Str) : Str := "https://youtu.be/".toList ++ id ++ '?' :: q

/-- URL schema: canonical long-form watch link
`https://www.youtube.com/watch?v=<id>`. -/
def watchUrl (id : Str) : Str := "https://www.youtube.com/watch?v=".toList ++ id

/-- No two adjacent characters are both whitespace. -/
def noAdjSpaces : Str → Bool
  | c1 :: c2 :: rest => !(pyIsSpace c1 && pyIsSpace c2) && noAdjSpaces (c2 :: rest)
  | _ => true

/-- Failure schedule failing exactly the `k`-th request (never when
`k = none`): models a single `HttpError` during pagination. -/
def failOnly : Option Nat → Nat → Bool
  | none, _ => false
  | some j, i => i == j

/-- How far enumeration can get under `failOnly k`. -/
def loopBound (k : Option Nat) (maxResults : Nat) : Nat :=
  match k with
  | none => maxResults
  | some j => min (50 * j) maxResults

/-! ### Helper lemmas about the batch orchestrator -/

/-- Whether a fetch outcome is one the source's `except` clause does not
catch (anything but `TranscriptsDisabled` / `NoTranscriptFound` / success). -/
def isOtherOutcome : FetchOutcome → Bool
  | .other _ => true
  | _ => false

/-- The `TranscriptResult` produced for one video whose fetch outcome is
handled (the `.other` branch is never reached under the hypotheses below). -/
def handledResult (fetch : FetchOracle) (language : Option Str) (v : Str) :
    TranscriptResult :=
  match fetch v language with
  | .ok segs => ⟨v, some (normalizeWs (joinSegments segs)), none⟩
  | .disabled m => ⟨v, none, some m⟩
  | .noTranscript m => ⟨v, none, some m⟩
  | .other m => ⟨v, none, some m⟩

theorem batch_eq_map_of_handled (fetch : FetchOracle) (language : Option Str) :
    ∀ ids : List Str, (∀ v ∈ ids, isOtherOutcome (fetch v language) = false) →
    extract_transcripts_batch fetch ids language
      = .ok (ids.map (handledResult fetch language)) := by
  intro ids h
  induction ids with
  | nil => rfl
  | cons v rest ih =>
    have hv : isOtherOutcome (fetch v language) = false := h v (by simp)
    have hrest := ih (fun u hu => h u (by simp [hu]))
    have hgv : get_video_transcript fetch v language
        = .ok (handledResult fetch language v) := by
      cases hfv : fetch v language with
      | other m => rw [hfv] at hv; simp [isOtherOutcome] at hv
      | ok segs => simp [get_video_transcript, handledResult, hfv]
      | disabled m => simp [get_video_transcript, handledResult, hfv]
      | noTranscript m => simp [get_video_transcript, handledResult, hfv]
    have hcons : extract_transcripts_batch fetch (v :: rest) language
        = (get_video_transcript fetch v language).bind
            (fun r => (extract_transcripts_batch fetch rest language).bind
              (fun rs => Except.ok (r :: rs))) := rfl
    rw [hcons, hgv, hrest]
    rfl

theorem batch_ok_length (fetch : FetchOracle) (language : Option Str) :
    ∀ (ids : List Str) (rs : List TranscriptResult),
    extract_transcripts_batch fetch ids language = .ok rs →
    rs.length = ids.length := by
  intro ids
  induction ids with
  | nil =>
    intro rs h
    simp only [extract_transcripts_batch] at h
    cases h
    rfl
  | cons v rest ih =>
    intro rs h
    simp only [extract_transcripts_batch] at h
    cases hA : get_video_transcript fetch v language with
    | error e => rw [hA] at h; cases h
    | ok r =>
      rw [hA] at h
      cases hB : extract_transcripts_batch fetch rest language with
      | error e => rw [hB] at h; cases h
      | ok rs' =>
        rw [hB] at h
        cases h
        simp [ih rs' hB]

/-! ### C1: batch preserves order and cardinality -/

/-- C1 (counterexample): the claim quantifies over any combination of
per-item fetch outcomes, but when a fetch fails with an outcome other
than transcripts-disabled / no-transcript-found, the batch returns no
result list at all — the exception propagates — so the returned
sequence's length does not equal the input's length.  Here one input id
with an unexpected failure yields `Except.error`, not a length-1 list. -/
theorem C1_counterexample :
    extract_transcripts_batch (fun _ _ => .other ("kaboom".toList))
      ["ccccccccccc".toList] none = .error ("kaboom".toList) := by rfl

/-- C1 (amended): for every input list and any combination of per-item
fetch outcomes in which every outcome is one the fetcher handles
(success, transcripts-disabled, or no-transcript-found),
`extract_transcripts_batch` returns a result list whose length equals the
length of `video_ids` and whose i-th element carries `video_id` equal to
`video_ids[i]` (stated as: mapping `video_id` over the results gives back
the input list), preserving input order. -/
theorem C1_batch_preserves_order (fetch : FetchOracle) (video_ids : List Str)
    (language : Option Str)
    (h : ∀ v ∈ video_ids, isOtherOutcome (fetch v language) = false) :
    ∃ rs, extract_transcripts_batch fetch video_ids language = .ok rs ∧
      rs.length = video_ids.length ∧
      rs.map TranscriptResult.video_id = video_ids := by
  refine ⟨video_ids.map (handledResult fetch language),
    batch_eq_map_of_handled fetch language video_ids h, by simp, ?_⟩
  rw [List.map_map]
  have : TranscriptResult.video_id ∘ handledResult fetch language = id := by
    funext v
    simp only [Function.comp_apply, handledResult, id]
    cases fetch v language <;> rfl
  rw [this, List.map_id]

/-- Witness for C1: a three-video batch where the middle fetch is
transcripts-disabled still returns three results carrying the input ids
in order. -/
theorem C1_witness :
    ∃ rs, extract_transcripts_batch
        (fun v _ => if v = "bbbbbbbbbbb".toList then .disabled ['d']
          else .ok [['h','i']])
        ["aaaaaaaaaaa".toList, "bbbbbbbbbbb".toList, "ddddddddddd".toList] none
      = .ok rs ∧
      rs.length = 3 ∧
      rs.map TranscriptResult.video_id
        = ["aaaaaaaaaaa".toList, "bbbbbbbbbbb".toList, "ddddddddddd".toList] :=
  C1_batch_preserves_order
    (fun v _ => if v = "bbbbbbbbbbb".toList then .disabled ['d'] else .ok [['h','i']])
    ["aaaaaaaaaaa".toList, "bbbbbbbbbbb".toList, "ddddddddddd".toList] none
    (by decide)

/-! ### C2: one item's unexpected failure must not abort the batch -/

/-- C2 (code behaviour at the failing input): the claim — required by the
spec, which calls wrapping each fetch a required fix — says a per-item
fetch failure of any kind is downgraded to an `error`-bearing result and
prior results are returned intact.  The source only catches
`TranscriptsDisabled` and `NoTranscriptFound`; any other exception
propagates out of `extract_transcripts_batch`, aborting the batch and
discarding the already-collected result for the first item. -/
theorem C2_unexpected_failure_aborts_batch :
    extract_transcripts_batch
      (fun v _ => if v = "aaaaaaaaaaa".toList then .ok [['h','i']]
        else .other ("boom".toList))
      ["aaaaaaaaaaa".toList, "bbbbbbbbbbb".toList] none
      = .error ("boom".toList) := by rfl

/-! ### C4: bare 11-character ids at the dispatcher -/

/-- C4 (code behaviour at the failing input): a bare 11-character video
identifier contains none of the dispatcher's URL markers, so
`extract_from_url` falls through every branch — without consulting the
resolver, whose own third rule does accept bare identifiers — and returns
the unrecognized-input error, for every oracle and language.  This
contradicts the claim (and the CLI help text, which says the positional
input may be an ID). -/
theorem C4_bare_id_unrecognized (api_key : Option Str)
    (playlists : Str → List Str) (failAt : Nat → Bool)
    (channels : Str → Option Str) (searchCh userCh : Str → Except Str (Option Str))
    (fetch : FetchOracle) (language : Option Str) :
    extract_from_url api_key playlists failAt channels searchCh userCh fetch
      ("dQw4w9WgXcQ".toList) language
    = .ok (.err ("URL not recognized as YouTube video, playlist, or channel".toList)) := by
  rfl

/-! ### C8: missing credential is a configuration error -/

/-- C8: a collection operation (playlist or channel enumeration) on an
extractor constructed without a credential raises the configuration
`ValueError` to the caller.  The result is the same for every remote-side
oracle (`playlists`, `failAt`, `channels`), i.e. it is produced before
any network call is attempted, and is an `Except.error`, not a per-item
error-bearing result. -/
theorem C8_missing_credential (playlists : Str → List Str) (failAt : Nat → Bool)
    (channels : Str → Option Str) (playlist_id channel_id : Str) (maxResults : Nat) :
    get_playlist_video_ids none playlists failAt playlist_id maxResults
      = .error ("YouTube API key is required for playlist operations".toList) ∧
    get_channel_video_ids none channels playlists failAt channel_id maxResults
      = .error ("YouTube API key is required for channel operations".toList) :=
  ⟨rfl, rfl⟩

/-! ### C3: malformed inputs at the resolver -/

/-- C3 (counterexample): the claim says a malformed input containing the
short-link host marker whose final path segment is not a well-formed
11-character identifier resolves to `None`; instead the source's
`youtu.be` branch returns the malformed 3-character segment. -/
theorem C3_counterexample :
    extract_video_id_from_url ("https://youtu.be/abc".toList)
      = some ("abc".toList)
    ∧ ("abc".toList.length = 11) = False := by
  constructor
  · decide
  · decide

/-- C3 (amended): for every malformed input that does not contain the
short-link host marker — no position holds `v=` or `/` followed by 11
identifier-alphabet characters, and the input is not itself a bare
11-character identifier — the resolver returns `None` (and, being a total
function, never raises).  Inputs containing the marker instead return the
final path segment with any trailing query stripped, even when malformed
(see the counterexample). -/
theorem C3_malformed_resolves_none (url : Str)
    (h1 : hasSub ("youtu.be".toList) url = false)
    (h2 : searchVId url = none)
    (h3 : isBareVId url = false) :
    extract_video_id_from_url url = none := by
  simp only [String.toList] at h1
  simp [extract_video_id_from_url, h1, h2, h3]

/-- Witness for C3 (amended) at the malformed input
`https://example.com/page`. -/
theorem C3_witness :
    hasSub ("youtu.be".toList) ("https://example.com/page".toList) = false ∧
    searchVId ("https://example.com/page".toList) = none ∧
    isBareVId ("https://example.com/page".toList) = false ∧
    extract_video_id_from_url ("https://example.com/page".toList) = none :=
  ⟨by decide, by decide, by decide,
   C3_malformed_resolves_none ("https://example.com/page".toList)
     (by decide) (by decide) (by decide)⟩

/-! ### C6: the resolver on valid video URLs -/

theorem beginsWith_true_take (sub : Str) : ∀ l, beginsWith sub l = true →
    l.take sub.length = sub := by
  induction sub with
  | nil => intro l _; simp
  | cons a as ih =>
    intro l h
    cases l with
    | nil => simp [beginsWith] at h
    | cons b bs =>
      simp only [beginsWith, Bool.and_eq_true, beq_iff_eq] at h
      simp [h.1, ih bs h.2]

theorem beginsWith_append (sub : Str) : ∀ l b, beginsWith sub l = true →
    beginsWith sub (l ++ b) = true := by
  induction sub with
  | nil => intro l b _; simp [beginsWith]
  | cons a as ih =>
    intro l b h
    cases l with
    | nil => simp [beginsWith] at h
    | cons c cs =>
      simp only [beginsWith, Bool.and_eq_true, beq_iff_eq] at h
      simp only [List.cons_append, beginsWith, Bool.and_eq_true, beq_iff_eq]
      exact ⟨h.1, ih cs b h.2⟩

theorem hasSub_append_left (sub : Str) : ∀ a b, hasSub sub a = true →
    hasSub sub (a ++ b) = true := by
  intro a
  induction a with
  | nil =>
    intro b h
    simp only [hasSub, List.isEmpty_eq_true] at h
    subst h
    cases b with
    | nil => rfl
    | cons c cs => simp [hasSub, beginsWith]
  | cons c cs ih =>
    intro b h
    simp only [hasSub, Bool.or_eq_true] at h ⊢
    rcases h with h | h
    · exact Or.inl (beginsWith_append sub (c :: cs) b h)
    · exact Or.inr (ih b h)

/-- A string of identifier-alphabet characters cannot contain the
short-link host marker (the marker holds a dot). -/
theorem hasSub_ytbe_of_idchars : ∀ l : Str, (∀ c ∈ l, isIdChar c = true) →
    hasSub ("youtu.be".toList) l = false := by
  intro l h
  induction l with
  | nil => rfl
  | cons c rest ih =>
    have hrest := ih (fun u hu => h u (by simp [hu]))
    have hb : beginsWith ("youtu.be".toList) (c :: rest) = false := by
      by_contra hb
      have hb' : beginsWith ("youtu.be".toList) (c :: rest) = true := by
        revert hb; cases beginsWith ("youtu.be".toList) (c :: rest) <;> simp
      have htake := beginsWith_true_take _ _ hb'
      have hdot : '.' ∈ (c :: rest).take ("youtu.be".toList).length := by
        rw [htake]; decide
      have hdot' : '.' ∈ c :: rest := List.mem_of_mem_take hdot
      have := h '.' hdot'
      simp [isIdChar] at this
    simp only [String.toList] at hb hrest ⊢
    simp [hasSub, hb, hrest]

theorem splitOnChar_of_not_mem (d : Char) : ∀ l : Str, (∀ c ∈ l, c ≠ d) →
    splitOnChar d l = [l] := by
  intro l h
  induction l with
  | nil => rfl
  | cons c rest ih =>
    have hc : c ≠ d := h c (by simp)
    have hrest := ih (fun u hu => h u (by simp [hu]))
    simp [splitOnChar, hrest, hc]

theorem getLastD_irrel (l : List Str) (x y : Str) (h : l ≠ []) :
    l.getLastD x = l.getLastD y := by
  cases l with
  | nil => exact absurd rfl h
  | cons a as => rw [List.getLastD_cons, List.getLastD_cons]

/-- The last group of `split(d)` on `a ++ d :: b` is `b` when `b` is free
of the separator (there are at least two groups, so the front of `a`
cannot affect the last group). -/
theorem splitOnChar_last_append (d : Char) (b : Str) (hb : ∀ c ∈ b, c ≠ d) :
    ∀ a : Str, (splitOnChar d (a ++ d :: b)).length ≥ 2 ∧
      (splitOnChar d (a ++ d :: b)).getLastD [] = b := by
  intro a
  induction a with
  | nil =>
    simp only [List.nil_append, splitOnChar, splitOnChar_of_not_mem d b hb]
    simp
  | cons c cs ih =>
    obtain ⟨hlen, hlast⟩ := ih
    cases hsp : splitOnChar d (cs ++ d :: b) with
    | nil => rw [hsp] at hlen; simp at hlen
    | cons g gs =>
      rw [hsp] at hlen hlast
      cases gs with
      | nil => simp at hlen
      | cons g' gs' =>
        have hstep : splitOnChar d ((c :: cs) ++ d :: b)
            = if c == d then [] :: g :: g' :: gs' else (c :: g) :: g' :: gs' := by
          simp only [List.cons_append, splitOnChar, List.append_eq, hsp]
        by_cases hc : (c == d) = true
        · rw [hstep, if_pos hc]
          constructor
          · simp
          · rw [List.getLastD_cons] at hlast ⊢
            rw [List.getLastD_cons]
            exact hlast
        · rw [hstep, if_neg hc]
          constructor
          · simp
          · rw [List.getLastD_cons] at hlast ⊢
            rw [getLastD_irrel (g' :: gs') (c :: g) g (by simp)]
            exact hlast

theorem takeUntil_of_not_mem (d : Char) (l : Str) (h : ∀ c ∈ l, c ≠ d) :
    takeUntil d l = l := by
  induction l with
  | nil => rfl
  | cons c rest ih =>
    have hc : c ≠ d := h c (by simp)
    have hrest := ih (fun u hu => h u (by simp [hu]))
    simp only [takeUntil] at hrest ⊢
    simp [List.takeWhile_cons, hc, hrest]

theorem takeUntil_append (d : Char) (a b : Str) (ha : ∀ c ∈ a, c ≠ d) :
    takeUntil d (a ++ d :: b) = a := by
  induction a with
  | nil => simp [takeUntil, List.takeWhile_cons]
  | cons c cs ih =>
    have hc : c ≠ d := ha c (by simp)
    have hind := ih (fun u hu => ha u (by simp [hu]))
    simp only [takeUntil, List.cons_append] at hind ⊢
    simp [List.takeWhile_cons, hc, hind]

theorem isIdChar_not_slash (c : Char) (h : isIdChar c = true) : c ≠ '/' := by
  intro hc; subst hc; simp [isIdChar] at h

theorem isIdChar_not_qmark (c : Char) (h : isIdChar c = true) : c ≠ '?' := by
  intro hc; subst hc; simp [isIdChar] at h

/-- Lemma: `searchVId` finds the identifier after `v=` in a canonical watch URL
(no earlier position of the concrete prefix can match). -/
theorem searchVId_watchUrl (id : Str) (hlen : id.length = 11)
    (hall : id.all isIdChar = true) :
    searchVId ("https://www.youtube.com/watch?v=".toList ++ id) = some id := by
  have htake : id.take 11 = id := by
    rw [← hlen]; exact List.take_length id
  simp only [String.toList]
  simp [searchVId, idCand, beginsWith, isIdChar, htake, hlen, hall]

/-- C6: for every well-formed 11-character identifier, the resolver
returns exactly the embedded identifier (unchanged) from: the canonical
short-link URL; the short-link URL with any trailing query (the query
must not contain `/`, which would shift the final path segment); and the
canonical long-form watch URL.  For the short-link forms the result is
the path segment after the final `/` with the trailing `?...` stripped. -/
theorem C6_resolver_valid_urls (id q : Str) (hid : wellFormedId id = true)
    (hq : ∀ c ∈ q, c ≠ '/') :
    extract_video_id_from_url (shortLinkUrl id) = some id ∧
    extract_video_id_from_url (shortLinkUrlQ id q) = some id ∧
    extract_video_id_from_url (watchUrl id) = some id := by
  have hid' := hid
  simp only [wellFormedId, Bool.and_eq_true, beq_iff_eq] at hid'
  obtain ⟨hlen, hall⟩ := hid'
  have hmem : ∀ c ∈ id, isIdChar c = true := by
    intro c hc
    exact List.all_eq_true.mp hall c hc
  have hid_slash : ∀ c ∈ id, c ≠ '/' := fun c hc => isIdChar_not_slash c (hmem c hc)
  have hid_q : ∀ c ∈ id, c ≠ '?' := fun c hc => isIdChar_not_qmark c (hmem c hc)
  refine ⟨?_, ?_, ?_⟩
  · -- short link without query
    have hsub : hasSub ("youtu.be".toList) (shortLinkUrl id) = true := by
      simp only [shortLinkUrl]
      exact hasSub_append_left ("youtu.be".toList) ("https://youtu.be/".toList) id
        (by decide)
    have hlast := (splitOnChar_last_append '/' id hid_slash ("https://youtu.be".toList)).2
    simp only [extract_video_id_from_url, shortLinkUrl] at hsub ⊢
    rw [if_pos hsub]
    have heq : ("https://youtu.be/".toList : Str) ++ id
        = "https://youtu.be".toList ++ '/' :: id := rfl
    rw [heq, hlast, takeUntil_of_not_mem '?' id hid_q]
  · -- short link with query
    have hb : ∀ c ∈ id ++ '?' :: q, c ≠ '/' := by
      intro c hc
      rcases List.mem_append.mp hc with hc | hc
      · exact hid_slash c hc
      · rcases List.mem_cons.mp hc with hc | hc
        · subst hc; decide
        · exact hq c hc
    have hsub : hasSub ("youtu.be".toList) (shortLinkUrlQ id q) = true := by
      simp only [shortLinkUrlQ]
      have hap := hasSub_append_left ("youtu.be".toList) ("https://youtu.be/".toList)
        (id ++ '?' :: q) (by decide)
      simpa [List.append_assoc] using hap
    have hlast := (splitOnChar_last_append '/' (id ++ '?' :: q) hb
      ("https://youtu.be".toList)).2
    simp only [extract_video_id_from_url, shortLinkUrlQ] at hsub ⊢
    rw [if_pos hsub]
    have heq : ("https://youtu.be/".toList : Str) ++ id ++ '?' :: q
        = "https://youtu.be".toList ++ '/' :: (id ++ '?' :: q) := by
      simp
    rw [heq, hlast, takeUntil_append '?' id q hid_q]
  · -- long-form watch URL
    have hsub : hasSub ("youtu.be".toList) (watchUrl id) = false := by
      have hid_sub := hasSub_ytbe_of_idchars id hmem
      simp only [watchUrl, String.toList] at hid_sub ⊢
      simp [hasSub, beginsWith, hid_sub]
    have hsearch : searchVId (watchUrl id) = some id := by
      simp only [watchUrl]
      exact searchVId_watchUrl id hlen hall
    simp only [extract_video_id_from_url]
    rw [if_neg (by rw [hsub]; simp), hsearch]

/-- Witness for C6 at the identifier `dQw4w9WgXcQ` with query `t=10s`. -/
theorem C6_witness :
    extract_video_id_from_url (shortLinkUrl ("dQw4w9WgXcQ".toList))
      = some ("dQw4w9WgXcQ".toList) ∧
    extract_video_id_from_url (shortLinkUrlQ ("dQw4w9WgXcQ".toList) ("t=10s".toList))
      = some ("dQw4w9WgXcQ".toList) ∧
    extract_video_id_from_url (watchUrl ("dQw4w9WgXcQ".toList))
      = some ("dQw4w9WgXcQ".toList) :=
  C6_resolver_valid_urls ("dQw4w9WgXcQ".toList) ("t=10s".toList)
    (by decide) (by decide)

/-! ### C7: whitespace normalization -/

theorem collapseWs_head : ∀ (rest : Str) (c : Char),
    (collapseWs (c :: rest)).head? = some (if pyIsSpace c then ' ' else c) := by
  intro rest
  induction rest with
  | nil => intro c; rfl
  | cons c2 rest' ih =>
    intro c
    by_cases h : (pyIsSpace c && pyIsSpace c2) = true
    · rw [collapseWs, if_pos h]
      rw [ih c2]
      simp only [Bool.and_eq_true] at h
      rw [if_pos h.1, if_pos h.2]
    · rw [collapseWs, if_neg h]
      rfl

theorem noAdjSpaces_cons (c : Char) (l : Str) (h : noAdjSpaces (c :: l) = true) :
    noAdjSpaces l = true := by
  cases l with
  | nil => rfl
  | cons c2 rest =>
    rw [noAdjSpaces, Bool.and_eq_true] at h
    exact h.2

theorem collapseWs_noAdj : ∀ l : Str, noAdjSpaces (collapseWs l) = true := by
  intro l
  induction l with
  | nil => rfl
  | cons c1 tail ih =>
    cases tail with
    | nil =>
      rw [collapseWs]
      rfl
    | cons c2 rest =>
      by_cases h : (pyIsSpace c1 && pyIsSpace c2) = true
      · rw [collapseWs, if_pos h]; exact ih
      · rw [collapseWs, if_neg h]
        cases hZ : collapseWs (c2 :: rest) with
        | nil => rfl
        | cons z zs =>
          have hz : z = if pyIsSpace c2 then ' ' else c2 := by
            have := collapseWs_head rest c2
            rw [hZ] at this
            simpa using this
          rw [noAdjSpaces, Bool.and_eq_true]
          constructor
          · -- head pair not both spaces
            simp only [Bool.and_eq_true] at h
            by_cases h1 : pyIsSpace c1 = true
            · have h2 : pyIsSpace c2 = false := by
                cases hc2 : pyIsSpace c2
                · rfl
                · exact absurd ⟨h1, hc2⟩ h
              rw [if_pos h1, hz, if_neg (by simp [h2])]
              simp [h2]
            · have h1' : pyIsSpace c1 = false := by
                cases hc1 : pyIsSpace c1
                · rfl
                · exact absurd hc1 h1
              rw [if_neg (by simp [h1'])]
              simp [h1']
          · rw [← hZ]; exact ih

theorem collapseWs_space_eq : ∀ l : Str, ∀ c ∈ collapseWs l,
    pyIsSpace c = true → c = ' ' := by
  intro l
  induction l with
  | nil => intro c hc; simp [collapseWs] at hc
  | cons c1 tail ih =>
    cases tail with
    | nil =>
      intro c hc hsp
      rw [collapseWs] at hc
      simp only [List.mem_singleton] at hc
      subst hc
      by_cases h1 : pyIsSpace c1 = true
      · rw [if_pos h1]
      · rw [if_neg h1] at hsp ⊢
        exact absurd hsp h1
    | cons c2 rest =>
      intro c hc hsp
      by_cases h : (pyIsSpace c1 && pyIsSpace c2) = true
      · rw [collapseWs, if_pos h] at hc
        exact ih c hc hsp
      · rw [collapseWs, if_neg h] at hc
        rcases List.mem_cons.mp hc with hc | hc
        · subst hc
          by_cases h1 : pyIsSpace c1 = true
          · rw [if_pos h1]
          · rw [if_neg h1] at hsp ⊢
            exact absurd hsp h1
        · exact ih c hc hsp

theorem collapseWs_filter : ∀ l : Str,
    (collapseWs l).filter (fun c => !pyIsSpace c) = l.filter (fun c => !pyIsSpace c) := by
  have hsp : pyIsSpace ' ' = true := rfl
  intro l
  induction l with
  | nil => rfl
  | cons c1 tail ih =>
    cases tail with
    | nil =>
      cases h1 : pyIsSpace c1 <;>
        simp [collapseWs, List.filter_cons, h1, hsp]
    | cons c2 rest =>
      cases h1 : pyIsSpace c1 <;> cases h2 : pyIsSpace c2 <;>
        simp [collapseWs, List.filter_cons, h1, h2, hsp, ih]

theorem head_dropWhile_not (p : Char → Bool) : ∀ (l : Str) (c : Char),
    (l.dropWhile p).head? = some c → p c = false := by
  intro l
  induction l with
  | nil => intro c h; simp [List.dropWhile] at h
  | cons a as ih =>
    intro c h
    rw [List.dropWhile_cons] at h
    by_cases hp : p a = true
    · rw [if_pos hp] at h; exact ih c h
    · rw [if_neg hp] at h
      simp only [List.head?_cons, Option.some_inj] at h
      rw [← h]
      cases hpa : p a
      · rfl
      · exact absurd hpa hp

theorem noAdjSpaces_dropWhile (p : Char → Bool) : ∀ l : Str,
    noAdjSpaces l = true → noAdjSpaces (l.dropWhile p) = true := by
  intro l
  induction l with
  | nil => intro h; exact h
  | cons a as ih =>
    intro h
    rw [List.dropWhile_cons]
    by_cases hp : p a = true
    · rw [if_pos hp]; exact ih (noAdjSpaces_cons a as h)
    · rw [if_neg hp]; exact h

theorem noAdjSpaces_take : ∀ (l : Str) (n : Nat),
    noAdjSpaces l = true → noAdjSpaces (l.take n) = true := by
  intro l
  induction l with
  | nil => intro n h; rw [List.take_nil]; rfl
  | cons a as ih =>
    intro n h
    cases n with
    | zero => rfl
    | succ m =>
      rw [List.take_succ_cons]
      cases as with
      | nil => rw [List.take_nil]; rfl
      | cons b bs =>
        cases m with
        | zero => rfl
        | succ k =>
          rw [List.take_succ_cons]
          rw [noAdjSpaces, Bool.and_eq_true]
          constructor
          · rw [noAdjSpaces, Bool.and_eq_true] at h
            exact h.1
          · have h2 : noAdjSpaces (b :: bs) = true := noAdjSpaces_cons a _ h
            have h3 := ih (k + 1) h2
            rw [List.take_succ_cons] at h3
            exact h3

theorem dropEndWs_take (l : Str) : ∃ n, dropEndWs l = l.take n := by
  obtain ⟨t, ht⟩ :=
    (List.dropWhile_suffix pyIsSpace : l.reverse.dropWhile pyIsSpace <:+ l.reverse)
  have hl : l = (l.reverse.dropWhile pyIsSpace).reverse ++ t.reverse := by
    have h2 := congrArg List.reverse ht
    rw [List.reverse_append, List.reverse_reverse] at h2
    exact h2.symm
  refine ⟨(l.reverse.dropWhile pyIsSpace).reverse.length, ?_⟩
  rw [dropEndWs]
  nth_rewrite 3 [hl]
  rw [List.take_left]

theorem noAdjSpaces_stripWs (l : Str) (h : noAdjSpaces l = true) :
    noAdjSpaces (stripWs l) = true := by
  obtain ⟨n, hn⟩ := dropEndWs_take (l.dropWhile pyIsSpace)
  rw [stripWs, hn]
  exact noAdjSpaces_take _ n (noAdjSpaces_dropWhile pyIsSpace l h)

theorem stripWs_subset (l : Str) : ∀ c ∈ stripWs l, c ∈ l := by
  intro c hc
  rw [stripWs] at hc
  obtain ⟨n, hn⟩ := dropEndWs_take (l.dropWhile pyIsSpace)
  rw [hn] at hc
  have h1 : c ∈ l.dropWhile pyIsSpace := List.mem_of_mem_take hc
  obtain ⟨t, ht⟩ :=
    (List.dropWhile_suffix pyIsSpace : l.dropWhile pyIsSpace <:+ l)
  rw [← ht]
  exact List.mem_append_right t h1

theorem filter_nonspace_dropWhile : ∀ l : Str,
    (l.dropWhile pyIsSpace).filter (fun c => !pyIsSpace c)
      = l.filter (fun c => !pyIsSpace c) := by
  intro l
  induction l with
  | nil => rfl
  | cons a as ih =>
    rw [List.dropWhile_cons]
    by_cases hp : pyIsSpace a = true
    · rw [if_pos hp, ih, List.filter_cons, if_neg (by simp [hp])]
    · rw [if_neg hp]

theorem filter_nonspace_stripWs (l : Str) :
    (stripWs l).filter (fun c => !pyIsSpace c) = l.filter (fun c => !pyIsSpace c) := by
  rw [stripWs]
  calc (dropEndWs (l.dropWhile pyIsSpace)).filter (fun c => !pyIsSpace c)
      = (((l.dropWhile pyIsSpace).reverse.dropWhile pyIsSpace).reverse).filter
          (fun c => !pyIsSpace c) := rfl
    _ = (((l.dropWhile pyIsSpace).reverse.dropWhile pyIsSpace).filter
          (fun c => !pyIsSpace c)).reverse := by rw [List.filter_reverse]
    _ = (((l.dropWhile pyIsSpace).reverse).filter (fun c => !pyIsSpace c)).reverse := by
          rw [filter_nonspace_dropWhile]
    _ = (((l.dropWhile pyIsSpace).filter (fun c => !pyIsSpace c)).reverse).reverse := by
          rw [List.filter_reverse]
    _ = (l.dropWhile pyIsSpace).filter (fun c => !pyIsSpace c) := by
          rw [List.reverse_reverse]
    _ = l.filter (fun c => !pyIsSpace c) := filter_nonspace_dropWhile l

theorem take_head? (l : Str) (n : Nat) (c : Char) (h : (l.take n).head? = some c) :
    l.head? = some c := by
  cases l with
  | nil => rw [List.take_nil] at h; cases h
  | cons a as =>
    cases n with
    | zero => cases h
    | succ m =>
      rw [List.take_succ_cons] at h
      simpa using h

theorem stripWs_head_not_space (l : Str) (c : Char)
    (h : (stripWs l).head? = some c) : pyIsSpace c = false := by
  rw [stripWs] at h
  obtain ⟨n, hn⟩ := dropEndWs_take (l.dropWhile pyIsSpace)
  rw [hn] at h
  exact head_dropWhile_not pyIsSpace l c (take_head? _ n c h)

theorem stripWs_getLast_not_space (l : Str) (c : Char)
    (h : (stripWs l).getLast? = some c) : pyIsSpace c = false := by
  rw [stripWs, dropEndWs, List.getLast?_reverse] at h
  exact head_dropWhile_not pyIsSpace _ c h

/-- C7: for every successful fetch, `get_video_transcript` returns the
segment texts joined in their given order with single-space separators
and the cleanup `re.sub(r'\s+',' ',·).strip()` applied; the cleanup's
result has exactly the claimed shape: no two adjacent whitespace
characters, every surviving whitespace character is a plain space,
neither edge is whitespace, and the non-whitespace characters are
preserved in order; in particular `"a\n\n  b   c"` normalizes to
`"a b c"`. -/
theorem C7_transcript_normalization (fetch : FetchOracle) (video_id : Str)
    (language : Option Str) (segs : List Str)
    (h : fetch video_id language = .ok segs) :
    get_video_transcript fetch video_id language
      = .ok ⟨video_id, some (normalizeWs (joinSegments segs)), none⟩ ∧
    noAdjSpaces (normalizeWs (joinSegments segs)) = true ∧
    (∀ c ∈ normalizeWs (joinSegments segs), pyIsSpace c = true → c = ' ') ∧
    (∀ c, (normalizeWs (joinSegments segs)).head? = some c → pyIsSpace c = false) ∧
    (∀ c, (normalizeWs (joinSegments segs)).getLast? = some c → pyIsSpace c = false) ∧
    (normalizeWs (joinSegments segs)).filter (fun c => !pyIsSpace c)
      = (joinSegments segs).filter (fun c => !pyIsSpace c) ∧
    normalizeWs ("a\n\n  b   c".toList) = "a b c".toList := by
  refine ⟨by simp [get_video_transcript, h], ?_, ?_, ?_, ?_, ?_, by decide⟩
  · exact noAdjSpaces_stripWs _ (collapseWs_noAdj _)
  · intro c hc hsp
    exact collapseWs_space_eq _ c (stripWs_subset _ c hc) hsp
  · intro c hc
    exact stripWs_head_not_space _ c hc
  · intro c hc
    exact stripWs_getLast_not_space _ c hc
  · rw [normalizeWs, filter_nonspace_stripWs, collapseWs_filter]

/-- Witness for C7: the segments `["a\n\n", " b   c"]` joined and
normalized yield the transcript `"a b c"`. -/
theorem C7_witness :
    get_video_transcript
      (fun _ _ => FetchOutcome.ok ["a\n\n".toList, " b   c".toList])
      ("eeeeeeeeeee".toList) none
    = .ok ⟨"eeeeeeeeeee".toList, some ("a b c".toList), none⟩ := by
  have h := C7_transcript_normalization
    (fun _ _ => FetchOutcome.ok ["a\n\n".toList, " b   c".toList])
    ("eeeeeeeeeee".toList) none ["a\n\n".toList, " b   c".toList] rfl
  rw [h.1]
  rfl

/-! ### Pagination lemmas (for C5, C9, C10) -/

theorem playlistLoop_spec (playlist : List Str) (maxResults : Nat) (k : Option Nat)
    (hmax : 0 < maxResults) :
    ∀ (fuel reqIdx : Nat) (acc : List Str) (pageToken : Option Nat),
    playlist.length - pageToken.getD 0 ≤ fuel →
    acc = playlist.take (pageToken.getD 0) →
    acc.length = pageToken.getD 0 →
    pageToken.getD 0 = min (50 * reqIdx) maxResults →
    pageToken.getD 0 < maxResults →
    (∀ j, k = some j → reqIdx ≤ j) →
    (playlistLoop playlist (failOnly k) maxResults reqIdx acc pageToken).1
      = playlist.take (loopBound k maxResults) := by
  intro fuel
  induction fuel using Nat.strong_induction_on with
  | _ fuel ih =>
    intro reqIdx acc tok hfuel hA hL hC hlt hk
    have hcur : tok.getD 0 = 50 * reqIdx := by omega
    have hcurlt : 50 * reqIdx < maxResults := by omega
    rw [playlistLoop]
    generalize hps : min (maxResults - acc.length) 50 = ps
    have hps1 : 1 ≤ ps := by omega
    have hps50 : ps ≤ 50 := by omega
    have hpsmax : tok.getD 0 + ps ≤ maxResults := by omega
    by_cases hfail : failOnly k reqIdx = true
    · rw [if_pos hfail]
      cases k with
      | none => simp [failOnly] at hfail
      | some j =>
        simp only [failOnly, beq_iff_eq] at hfail
        subst hfail
        simp only [loopBound]
        rw [hA, hC]
    · rw [if_neg hfail]
      have hkne : ∀ j, k = some j → reqIdx + 1 ≤ j := by
        intro j hj
        have hj1 := hk j hj
        subst hj
        simp only [failOnly, beq_iff_eq] at hfail
        omega
      have hitems : (playlistItemsList playlist ps tok).items
          = (playlist.drop (tok.getD 0)).take ps := rfl
      by_cases hh1 : (tok.getD 0) + ps < playlist.length
      · rw [dif_pos hh1]
        have hleni : ((playlistItemsList playlist ps tok).items).length = ps := by
          rw [hitems]
          simp only [List.length_take, List.length_drop]
          omega
        have hacc' : acc ++ (playlistItemsList playlist ps tok).items
            = playlist.take (tok.getD 0 + ps) := by
          rw [hitems, List.take_add]
          rw [← hA]
        by_cases hh2 : maxResults ≤ (acc ++ (playlistItemsList playlist ps tok).items).length
        · rw [dif_pos hh2]
          rw [List.length_append, hleni] at hh2
          have heqmax : tok.getD 0 + ps = maxResults := by omega
          rw [hacc', heqmax]
          cases k with
          | none => rfl
          | some j =>
            have hj := hkne j rfl
            simp only [loopBound]
            congr 1
            omega
        · rw [dif_neg hh2]
          rw [List.length_append, hleni] at hh2
          have hps50' : ps = 50 := by omega
          rcases hrec : playlistLoop playlist (failOnly k) maxResults (reqIdx + 1)
            (acc ++ (playlistItemsList playlist ps tok).items)
            (some (tok.getD 0 + ps)) with ⟨ids, reqs⟩
          have hih := ih (playlist.length - (tok.getD 0 + ps))
            (by omega) (reqIdx + 1)
            (acc ++ (playlistItemsList playlist ps tok).items)
            (some (tok.getD 0 + ps))
            (by simp only [Option.getD_some]; omega)
            (by simp only [Option.getD_some]; exact hacc')
            (by simp only [Option.getD_some, List.length_append, hleni]; omega)
            (by simp only [Option.getD_some]; omega)
            (by simp only [Option.getD_some]; omega)
            hkne
          rw [hrec] at hih
          exact hih
      · rw [dif_neg hh1]
        have hlen : playlist.length ≤ tok.getD 0 + ps := by omega
        have hacc' : acc ++ (playlistItemsList playlist ps tok).items
            = playlist.take (tok.getD 0 + ps) := by
          rw [hitems, List.take_add]
          rw [← hA]
        rw [hacc', List.take_of_length_le hlen, List.take_of_length_le]
        cases k with
        | none => simp only [loopBound]; omega
        | some j =>
          have hj := hkne j rfl
          simp only [loopBound]
          omega

/-- Every page request the loop issues carries the page size
`min(50, maxResults - already_collected)` (the source computes
`min(max_results - len(video_ids), 50)`, the same by commutativity). -/
theorem playlistLoop_trace (playlist : List Str) (failAt : Nat → Bool)
    (maxResults : Nat) :
    ∀ (fuel reqIdx : Nat) (acc : List Str) (tok : Option Nat),
    playlist.length - tok.getD 0 ≤ fuel →
    ∀ e ∈ (playlistLoop playlist failAt maxResults reqIdx acc tok).2,
      e.size = min 50 (maxResults - e.before) := by
  intro fuel
  induction fuel using Nat.strong_induction_on with
  | _ fuel ih =>
    intro reqIdx acc tok hfuel e he
    rw [playlistLoop] at he
    by_cases hfail : failAt reqIdx = true
    · rw [if_pos hfail] at he
      simp only [List.mem_singleton] at he
      subst he
      simp [Nat.min_comm]
    · rw [if_neg hfail] at he
      by_cases hh1 : (tok.getD 0) + min (maxResults - acc.length) 50 < playlist.length
      · rw [dif_pos hh1] at he
        by_cases hh2 : maxResults ≤ (acc ++ (playlistItemsList playlist
            (min (maxResults - acc.length) 50) tok).items).length
        · rw [dif_pos hh2] at he
          simp only [List.mem_singleton] at he
          subst he
          simp [Nat.min_comm]
        · rw [dif_neg hh2] at he
          rcases hrec : playlistLoop playlist failAt maxResults (reqIdx + 1)
            (acc ++ (playlistItemsList playlist (min (maxResults - acc.length) 50) tok).items)
            (some ((tok.getD 0) + min (maxResults - acc.length) 50)) with ⟨ids, reqs⟩
          rw [hrec] at he
          simp only [List.mem_cons] at he
          rcases he with he | he
          · subst he
            simp [Nat.min_comm]
          · have hps1 : 1 ≤ min (maxResults - acc.length) 50 := by
              simp only [List.length_append] at hh2
              omega
            have hih := ih (playlist.length - ((tok.getD 0)
                + min (maxResults - acc.length) 50)) (by omega) (reqIdx + 1)
              (acc ++ (playlistItemsList playlist (min (maxResults - acc.length) 50) tok).items)
              (some ((tok.getD 0) + min (maxResults - acc.length) 50))
              (by simp only [Option.getD_some]; omega) e
            rw [hrec] at hih
            exact hih he
      · rw [dif_neg hh1] at he
        simp only [List.mem_singleton] at he
        subst he
        simp [Nat.min_comm]

/-- Whatever the failure schedule, the loop never collects more than
`maxResults` identifiers (given it starts within budget). -/
theorem playlistLoop_length_le (playlist : List Str) (failAt : Nat → Bool)
    (maxResults : Nat) :
    ∀ (fuel reqIdx : Nat) (acc : List Str) (tok : Option Nat),
    playlist.length - tok.getD 0 ≤ fuel →
    acc.length ≤ maxResults →
    (playlistLoop playlist failAt maxResults reqIdx acc tok).1.length ≤ maxResults := by
  intro fuel
  induction fuel using Nat.strong_induction_on with
  | _ fuel ih =>
    intro reqIdx acc tok hfuel hacc
    have hleni : ((playlistItemsList playlist (min (maxResults - acc.length) 50)
        tok).items).length ≤ min (maxResults - acc.length) 50 := by
      simp only [playlistItemsList, List.length_take]
      omega
    rw [playlistLoop]
    by_cases hfail : failAt reqIdx = true
    · rw [if_pos hfail]
      exact hacc
    · rw [if_neg hfail]
      by_cases hh1 : (tok.getD 0) + min (maxResults - acc.length) 50 < playlist.length
      · rw [dif_pos hh1]
        by_cases hh2 : maxResults ≤ (acc ++ (playlistItemsList playlist
            (min (maxResults - acc.length) 50) tok).items).length
        · rw [dif_pos hh2]
          simp only [List.length_append] at hh2 ⊢
          omega
        · rw [dif_neg hh2]
          rcases hrec : playlistLoop playlist failAt maxResults (reqIdx + 1)
            (acc ++ (playlistItemsList playlist (min (maxResults - acc.length) 50) tok).items)
            (some ((tok.getD 0) + min (maxResults - acc.length) 50)) with ⟨ids, reqs⟩
          have hps1 : 1 ≤ min (maxResults - acc.length) 50 := by
            simp only [List.length_append] at hh2
            omega
          have hih := ih (playlist.length - ((tok.getD 0)
              + min (maxResults - acc.length) 50)) (by omega) (reqIdx + 1)
            (acc ++ (playlistItemsList playlist (min (maxResults - acc.length) 50) tok).items)
            (some ((tok.getD 0) + min (maxResults - acc.length) 50))
            (by simp only [Option.getD_some]; omega)
            (by simp only [List.length_append] at hh2 ⊢; omega)
          rw [hrec] at hih
          exact hih
      · rw [dif_neg hh1]
        simp only [List.length_append]
        omega

/-! ### C5 and C9: playlist enumeration -/

/-- C5: for every playlist enumeration with `max_results > 0` (and a
usable credential, with no endpoint failures), `get_playlist_video_ids`
returns the first `max_results` playlist items: at most `max_results`
identifiers, exactly `max_results` when the collection holds at least
that many; every issued page request carries the page size
`min(50, max_results - already_collected)`; and the loop stops exactly
when the response carries no continuation cursor or the accumulated count
reaches `max_results` (equivalently, the result is precisely
`playlist.take max_results`). -/
theorem C5_playlist_pagination (key : Str) (playlists : Str → List Str)
    (playlist_id : Str) (maxResults : Nat) (hkey : key ≠ [])
    (hmax : 0 < maxResults) :
    ∃ r, get_playlist_video_ids (some key) playlists (failOnly none) playlist_id
        maxResults = .ok r ∧
      r.1 = (playlists playlist_id).take maxResults ∧
      r.1.length = min maxResults (playlists playlist_id).length ∧
      r.1.length ≤ maxResults ∧
      (maxResults ≤ (playlists playlist_id).length → r.1.length = maxResults) ∧
      (∀ e ∈ r.2, e.size = min 50 (maxResults - e.before)) := by
  have hfalsy : pyFalsy (some key) = false := by
    cases key with
    | nil => exact absurd rfl hkey
    | cons a as => rfl
  have hone : (playlistLoop (playlists playlist_id) (failOnly none) maxResults
      0 [] none).1 = (playlists playlist_id).take maxResults := by
    have hsp := playlistLoop_spec (playlists playlist_id) maxResults none hmax
      ((playlists playlist_id).length) 0 [] none
      (by simp) (by simp) (by simp) (by simp) hmax
      (fun j hj => by cases hj)
    simpa [loopBound] using hsp
  refine ⟨playlistLoop (playlists playlist_id) (failOnly none) maxResults 0 [] none,
    ?_, hone, ?_, ?_, ?_, ?_⟩
  · rw [get_playlist_video_ids, if_neg (by simp [hfalsy])]
  · rw [hone, List.length_take]
  · rw [hone, List.length_take]; omega
  · intro hge; rw [hone, List.length_take]; omega
  · exact playlistLoop_trace (playlists playlist_id) (failOnly none) maxResults
      ((playlists playlist_id).length) 0 [] none (by simp)

/-- Witness for C5 at a 7-item playlist with `max_results = 3`. -/
theorem C5_witness :
    ∃ r, get_playlist_video_ids (some ['k'])
        (fun _ => [['a'], ['b'], ['c'], ['d'], ['e'], ['f'], ['g']])
        (failOnly none) ['P'] 3 = .ok r ∧
      r.1 = [['a'], ['b'], ['c'], ['d'], ['e'], ['f'], ['g']].take 3 ∧
      r.1.length = min 3 ([['a'], ['b'], ['c'], ['d'], ['e'], ['f'], ['g']] : List Str).length ∧
      r.1.length ≤ 3 ∧
      (3 ≤ ([['a'], ['b'], ['c'], ['d'], ['e'], ['f'], ['g']] : List Str).length →
        r.1.length = 3) ∧
      (∀ e ∈ r.2, e.size = min 50 (3 - e.before)) :=
  C5_playlist_pagination ['k']
    (fun _ => [['a'], ['b'], ['c'], ['d'], ['e'], ['f'], ['g']]) ['P'] 3
    (by decide) (by decide)

/-- C9: when some page request fails with an `HttpError` (modelled by the
schedule failing exactly at request `j`, every earlier request
succeeding), `get_playlist_video_ids` does not raise: it returns the
identifiers accumulated from the pages fetched before the failure — the
first `min(50·j, max_results)` playlist items — rather than discarding
prior progress. -/
theorem C9_pagination_error_partial (key : Str) (playlists : Str → List Str)
    (playlist_id : Str) (maxResults j : Nat) (hkey : key ≠ [])
    (hmax : 0 < maxResults) :
    ∃ r, get_playlist_video_ids (some key) playlists (failOnly (some j)) playlist_id
        maxResults = .ok r ∧
      r.1 = (playlists playlist_id).take (min (50 * j) maxResults) := by
  have hfalsy : pyFalsy (some key) = false := by
    cases key with
    | nil => exact absurd rfl hkey
    | cons a as => rfl
  refine ⟨playlistLoop (playlists playlist_id) (failOnly (some j)) maxResults 0 [] none,
    ?_, ?_⟩
  · rw [get_playlist_video_ids, if_neg (by simp [hfalsy])]
  · have hsp := playlistLoop_spec (playlists playlist_id) maxResults (some j) hmax
      ((playlists playlist_id).length) 0 [] none
      (by simp) (by simp) (by simp) (by simp) hmax
      (fun i hi => by cases hi; omega)
    simpa [loopBound] using hsp

/-- Witness for C9: a 5-item playlist with `max_results = 200` failing at
request 1 still returns the 5 items of the single page fetched before
the failure (`take (min 50 200)`). -/
theorem C9_witness :
    ∃ r, get_playlist_video_ids (some ['k'])
        (fun _ => [['a'], ['b'], ['c'], ['d'], ['e']])
        (failOnly (some 1)) ['P'] 200 = .ok r ∧
      r.1 = [['a'], ['b'], ['c'], ['d'], ['e']].take (min (50 * 1) 200) :=
  C9_pagination_error_partial ['k'] (fun _ => [['a'], ['b'], ['c'], ['d'], ['e']])
    ['P'] 200 1 (by decide) (by decide)

/-! ### C10: the dispatcher caps collections at 50 -/

theorem except_bind_ok {ε α β : Type} (x : Except ε α) (f : α → Except ε β) (b : β)
    (h : (do let a ← x; f a) = .ok b) : ∃ a, x = .ok a ∧ f a = .ok b := by
  cases x with
  | error e => exact Except.noConfusion h
  | ok a => exact ⟨a, rfl, h⟩

theorem get_playlist_ok_le (api_key : Option Str) (playlists : Str → List Str)
    (failAt : Nat → Bool) (pid : Str) (r : List Str × List PageReq)
    (h : get_playlist_video_ids api_key playlists failAt pid 50 = .ok r) :
    r.1.length ≤ 50 := by
  rw [get_playlist_video_ids] at h
  by_cases hf : pyFalsy api_key = true
  · rw [if_pos hf] at h
    exact Except.noConfusion h
  · rw [if_neg hf] at h
    have h' := Except.ok.inj h
    rw [← h']
    exact playlistLoop_length_le (playlists pid) failAt 50
      ((playlists pid).length) 0 [] none (by simp) (by simp)

theorem get_channel_ok_le (api_key : Option Str) (channels : Str → Option Str)
    (playlists : Str → List Str) (failAt : Nat → Bool) (cid : Str) (ids : List Str)
    (h : get_channel_video_ids api_key channels playlists failAt cid 50 = .ok ids) :
    ids.length ≤ 50 := by
  rw [get_channel_video_ids] at h
  by_cases hf : pyFalsy api_key = true
  · rw [if_pos hf] at h
    exact Except.noConfusion h
  · rw [if_neg hf] at h
    cases hch : channels cid with
    | none =>
      rw [hch] at h
      have h' := Except.ok.inj h
      rw [← h']
      simp
    | some uploads =>
      rw [hch] at h
      obtain ⟨r, hgp, hret⟩ := except_bind_ok _ _ _ h
      have h' := Except.ok.inj hret
      rw [← h']
      exact get_playlist_ok_le api_key playlists failAt uploads r hgp

/-- C10: every playlist or channel result the dispatcher produces carries
at most 50 transcripts — `extract_from_url` always invokes enumeration
with the default `max_results = 50` (and exposes no parameter to raise
it), and the batch yields one result per enumerated identifier. -/
theorem C10_collection_capped (api_key : Option Str) (playlists : Str → List Str)
    (failAt : Nat → Bool) (channels : Str → Option Str)
    (searchCh userCh : Str → Except Str (Option Str)) (fetch : FetchOracle)
    (url : Str) (language : Option Str) :
    (∀ pid ts, extract_from_url api_key playlists failAt channels searchCh userCh fetch
        url language = .ok (.playlistR pid ts) → ts.length ≤ 50) ∧
    (∀ cid ts, extract_from_url api_key playlists failAt channels searchCh userCh fetch
        url language = .ok (.channelR cid ts) → ts.length ≤ 50) := by
  constructor
  · intro pid ts h
    simp only [extract_from_url] at h
    split at h
    · split at h
      · exact ExtractResult.noConfusion (Except.ok.inj h)
      · split at h
        · exact ExtractResult.noConfusion (Except.ok.inj h)
        · obtain ⟨r, _, hret⟩ := except_bind_ok _ _ _ h
          exact ExtractResult.noConfusion (Except.ok.inj hret)
    · split at h
      · split at h
        · exact ExtractResult.noConfusion (Except.ok.inj h)
        · obtain ⟨r, hgp, h3⟩ := except_bind_ok _ _ _ h
          obtain ⟨ts', hbatch, h4⟩ := except_bind_ok _ _ _ h3
          have h5 := Except.ok.inj h4
          injection h5 with hpl hts
          rw [← hts, batch_ok_length fetch language r.1 ts' hbatch]
          exact get_playlist_ok_le api_key playlists failAt _ r hgp
      · split at h
        · split at h
          · exact ExtractResult.noConfusion (Except.ok.inj h)
          · split at h
            · obtain ⟨ids, _, h6⟩ := except_bind_ok _ _ _ h
              obtain ⟨ts', _, h7⟩ := except_bind_ok _ _ _ h6
              exact ExtractResult.noConfusion (Except.ok.inj h7)
            · split at h
              · exact ExtractResult.noConfusion (Except.ok.inj h)
              · exact ExtractResult.noConfusion (Except.ok.inj h)
              · obtain ⟨ids, _, h6⟩ := except_bind_ok _ _ _ h
                obtain ⟨ts', _, h7⟩ := except_bind_ok _ _ _ h6
                exact ExtractResult.noConfusion (Except.ok.inj h7)
        · exact ExtractResult.noConfusion (Except.ok.inj h)
  · intro cid ts h
    simp only [extract_from_url] at h
    split at h
    · split at h
      · exact ExtractResult.noConfusion (Except.ok.inj h)
      · split at h
        · exact ExtractResult.noConfusion (Except.ok.inj h)
        · obtain ⟨r, _, hret⟩ := except_bind_ok _ _ _ h
          exact ExtractResult.noConfusion (Except.ok.inj hret)
    · split at h
      · split at h
        · exact ExtractResult.noConfusion (Except.ok.inj h)
        · obtain ⟨r, hgp, h3⟩ := except_bind_ok _ _ _ h
          obtain ⟨ts', hbatch, h4⟩ := except_bind_ok _ _ _ h3
          exact ExtractResult.noConfusion (Except.ok.inj h4)
      · split at h
        · split at h
          · exact ExtractResult.noConfusion (Except.ok.inj h)
          · split at h
            · obtain ⟨ids, hgc, h6⟩ := except_bind_ok _ _ _ h
              obtain ⟨ts', hbatch, h7⟩ := except_bind_ok _ _ _ h6
              have h8 := Except.ok.inj h7
              injection h8 with hch hts
              rw [← hts, batch_ok_length fetch language ids ts' hbatch]
              exact get_channel_ok_le api_key channels playlists failAt _ ids hgc
            · split at h
              · exact ExtractResult.noConfusion (Except.ok.inj h)
              · exact ExtractResult.noConfusion (Except.ok.inj h)
              · obtain ⟨ids, hgc, h6⟩ := except_bind_ok _ _ _ h
                obtain ⟨ts', hbatch, h7⟩ := except_bind_ok _ _ _ h6
                have h8 := Except.ok.inj h7
                injection h8 with hch hts
                rw [← hts, batch_ok_length fetch language ids ts' hbatch]
                exact get_channel_ok_le api_key channels playlists failAt _ ids hgc
        · exact ExtractResult.noConfusion (Except.ok.inj h)

/-- Witness for C10 at a two-video playlist URL. -/
theorem C10_witness :
    ([⟨"aaaaaaaaaaa".toList, some ['h', 'i'], none⟩,
      ⟨"bbbbbbbbbbb".toList, some ['h', 'i'], none⟩] : List TranscriptResult).length
      ≤ 50 :=
  (C10_collection_capped (some ['k'])
      (fun _ => ["aaaaaaaaaaa".toList, "bbbbbbbbbbb".toList]) (fun _ => false)
      (fun _ => none) (fun _ => .ok none) (fun _ => .ok none)
      (fun _ _ => .ok [['h', 'i']]) ("youtube.com/playlist?list=PL1".toList) none).1
    ("PL1".toList)
    [⟨"aaaaaaaaaaa".toList, some ['h', 'i'], none⟩,
     ⟨"bbbbbbbbbbb".toList, some ['h', 'i'], none⟩]
    (by simp [extract_from_url, get_playlist_video_ids, playlistLoop,
          playlistItemsList, pyFalsy]
        rfl)
